import Mathlib

/-!
Verification of `spikeinterface/preprocessing/remove_bad_channels.py`
(bad-channel detection, IBL algorithm).

The Python source is shallowly embedded: pure numerical code becomes Lean
functions over `ℚ`, `ℝ` and `ℂ` (machine floats are modelled by exact
arithmetic; where a spec tolerance is involved the theorems prove exact
equality or an explicit gap larger than the tolerance), Python dictionaries
become association lists, and fallible code returns `Except PyError`.
-/

namespace RemoveBadChannels

/-- Python values stored in the `random_chunk_kwargs` dictionary.
Only booleans and integers occur in this module. -/
inductive PyVal where
  | pybool : Bool → PyVal
  | pyint : Int → PyVal
deriving DecidableEq

/-- Python truthiness of a stored value (`bool(v)`). -/
def truthy : PyVal → Bool
  | .pybool b => b
  | .pyint n => n != 0

/-- Python exception classes raised by the embedded code. -/
inductive PyError where
  | nameError
  | typeError
  | attributeError
deriving DecidableEq

/-- A Python `dict` with string keys, as an association list (unique keys). -/
def Kwargs : Type := List (String × PyVal)

instance : DecidableEq Kwargs := by
  unfold Kwargs
  infer_instance

/-- Dictionary lookup, `d.get(s)` / `d[s]`. -/
def dget : Kwargs → String → Option PyVal
  | [], _ => none
  | (a, v) :: rest, s => if a = s then some v else dget rest s

/-- Key membership, `s in d`. -/
def dcontains (k : Kwargs) (s : String) : Bool :=
  (dget k s).isSome

/-- Key removal, `d.pop(s)` (the dictionary after the pop). -/
def dpop : Kwargs → String → Kwargs
  | [], _ => []
  | (a, v) :: rest, s => if a = s then dpop rest s else (a, v) :: dpop rest s

/-- Setting one key, `d[s] = v`: replace in place or append. -/
def dset : Kwargs → String → PyVal → Kwargs
  | [], s, v => [(s, v)]
  | (a, w) :: rest, s, v =>
      if a = s then (a, v) :: rest else (a, w) :: dset rest s v

/-- Dictionary update `d.update(u)`: entries of `u` override entries of `d`. -/
def dupdate (d u : Kwargs) : Kwargs :=
  u.foldl (fun acc p => dset acc p.1 p.2) d

/-- Source `detect_bad_channels`, lines 113-114: when `psd_hf_threshold` is
`None` the body evaluates `1.4 if fs < 5000 else 0.02`, but the name `fs`
is bound nowhere in the function or module scope, so Python raises
`NameError` before anything else runs.  When a threshold is supplied the
`if` is skipped and the supplied value is used. -/
def psd_hf_threshold_resolve : Option ℚ → Except PyError ℚ
  | some v => Except.ok v
  | none => Except.error PyError.nameError

/-- Modelled from the spec: the documented default high-frequency PSD
threshold, `1.4 if sampling rate < 5000 Hz else 0.02` (spec section 6);
the source never manages to compute it because of the unbound `fs`. -/
def spec_psd_hf_default (fs : ℚ) : ℚ :=
  if fs < 5000 then 1.4 else 0.02

/-- Source `handle_random_chunk_kwargs`, lines 166-171: the default chunk
sampling policy.  `int(0.3 * fs)` truncates toward zero, which is the floor
for the nonnegative sampling frequencies; the float literal `0.3` is
modelled by the exact rational. -/
def default_random_chunk_kwargs (fs : ℚ) : Kwargs :=
  [("return_scaled", PyVal.pybool true),
   ("num_chunks_per_segment", PyVal.pyint 10),
   ("chunk_size", PyVal.pyint ⌊0.3 * fs⌋),
   ("concatenated", PyVal.pybool false),
   ("seed", PyVal.pyint 0)]

/-- Source lines 162-163: `"concatenated" in user and user["concatenated"]`
for a (non-`None`) dictionary argument. -/
def concat_requested (u : Kwargs) : Bool :=
  match dget u "concatenated" with
  | some v => truthy v
  | none => false

/-- Source `handle_test_case`, lines 180-190: pops the hidden
`"scale_for_testing"` key from the kwargs dictionary and reports whether
the key was present (the stored value is never inspected). -/
def handle_test_case (k : Kwargs) : Kwargs × Bool :=
  if dcontains k "scale_for_testing" then (dpop k "scale_for_testing", true)
  else (k, false)

/-- Source `handle_random_chunk_kwargs`, lines 149-178.  Line 162 evaluates
`"concatenated" in user_random_chunk_kwargs` first; when the caller passed
`None` (the `detect_bad_channels` default) this is `"..." in None` and
Python raises `TypeError`, so the `None` branch never reaches the defaults.
For a dictionary argument: a truthy `"concatenated"` raises
`AttributeError`, otherwise the defaults are merged with the user entries
(user wins) and `handle_test_case` pops the hidden test flag. -/
def handle_random_chunk_kwargs (fs : ℚ) :
    Option Kwargs → Except PyError (Kwargs × Bool)
  | none => Except.error PyError.typeError
  | some u =>
      if concat_requested u then Except.error PyError.attributeError
      else Except.ok (handle_test_case (dupdate (default_random_chunk_kwargs fs) u))

/-- Source `detect_bad_channels_ibl`, line 217: the test-only scale factor
applied to the chunk before the Welch PSD estimate. -/
def welch_scale (scale_for_testing : Bool) : ℚ :=
  if scale_for_testing then 1000000 else 1

/-- Source `detect_bad_channels`, lines 113-132, with the chunk sampler
(`get_random_data_chunks`) and the per-chunk classification abstracted as
function parameters: the threshold default is resolved first, then the
kwargs are processed, and only afterwards is the sampler invoked on the
processed kwargs; any earlier exception propagates. -/
def detect_bad_channels_run {α β : Type} (sampler : Kwargs → α)
    (classify : ℚ → Bool → α → β) (psd_hf_threshold : Option ℚ) (fs : ℚ)
    (user : Option Kwargs) : Except PyError β :=
  match psd_hf_threshold_resolve psd_hf_threshold with
  | Except.error e => Except.error e
  | Except.ok t =>
      match handle_random_chunk_kwargs fs user with
      | Except.error e => Except.error e
      | Except.ok (k, s) => Except.ok (classify t s (sampler k))

/-- Source `detect_bad_channels`, line 141: the degraded-reliability warning
fires when `bad_channel_ids.size > num_channels * 0.333`; the float literal
`0.333` is modelled by the exact rational (the comparison agrees with the
binary-float one on all channel counts of realistic size). -/
def bad_channel_warning (num_channels num_bad : ℕ) : Bool :=
  decide ((num_channels : ℚ) * 0.333 < (num_bad : ℚ))

/-- Source line 138: `np.where(channel_flags != 0)`. -/
def bad_inds (flags : List ℕ) : List ℕ :=
  (List.range flags.length).filter (fun i => flags.getD i 0 != 0)

/-- Source `detect_bad_channels`, lines 138-146: from the aggregated flags,
compute the bad indices, decide the warning, and return; the warning never
alters or suppresses the returned value. -/
def detect_bad_channels_result (flags : List ℕ) : List ℕ × Bool × List ℕ :=
  (bad_inds flags,
   bad_channel_warning flags.length (bad_inds flags).length,
   flags)

/-- Maximum of a list of naturals (`np.max`; 0 on the empty list, which the
source never hits because of its emptiness guards). -/
def listMax : List ℕ → ℕ
  | [] => 0
  | x :: xs => xs.foldl Nat.max x

/-- Minimum of a list of naturals (0 on the empty list). -/
def listMin : List ℕ → ℕ
  | [] => 0
  | x :: xs => xs.foldl Nat.min x

/-- Model of `scipy.stats.mode` on one row of labels: the most frequent
value; per the scipy documentation, when several values are equally
frequent the smallest one is returned. -/
def listMode (l : List ℕ) : ℕ :=
  listMin (l.filter (fun v => l.count v == listMax (l.map l.count)))

/-- Source `detect_bad_channels`, line 136: per-channel mode of the label
matrix across chunks (`channel_labels` is channel-major here: one inner
list per channel, one entry per chunk). -/
def channel_flags_of (channel_labels : List (List ℕ)) : List ℕ :=
  channel_labels.map listMode

/-- Forward difference `np.diff` on a list of indices (the source applies
it to the strictly increasing `ioutside`, so natural subtraction is
exact). -/
def npdiff (l : List ℕ) : List ℕ :=
  List.zipWith (fun a b => b - a) l l.tail

/-- Source line 239: `np.cumsum(np.r_[0, np.diff(ioutside) - 1])`, the
cumulative count of gaps before each flagged index. -/
def gaps (l : List ℕ) : List ℕ :=
  List.scanl (· + ·) 0 ((npdiff l).map (fun d => d - 1))

/-- Source `detect_bad_channels_ibl`, lines 237-241: given the ascending
flagged indices `ioutside` and the channel count `nc`, the indices that
receive label 3.  When the flagged set is nonempty and its last index is
the last channel, keep exactly the entries whose cumulative gap count
equals its maximum (`ioutside[a == np.max(a)]`); otherwise keep nothing. -/
def extract_outside (ioutside : List ℕ) (nc : ℕ) : List ℕ :=
  if ioutside ≠ [] ∧ ioutside.getLast? = some (nc - 1) then
    ((ioutside.zip (gaps ioutside)).filter
      (fun p => p.2 == listMax (gaps ioutside))).map Prod.fst
  else []

/-- Modelled from the spec (section 4.4): the maximal contiguous trailing
run of a sorted index list — the longest suffix in which consecutive
indices are adjacent.  Used as the specification-side description that the
cumulative-gap computation of `extract_outside` is compared against. -/
def trailingRun : List ℕ → List ℕ
  | [] => []
  | [x] => [x]
  | x :: y :: rest =>
      let t := trailingRun (y :: rest)
      if y = x + 1 ∧ t = y :: rest then x :: t else t

/-- Source `detect_bad_channels_ibl`, lines 232-244 (the label-assignment
block, taken as a function of the computed feature vectors): start from
zeros; write 3 on the trailing contiguous run of channels with
`xcor_lf < -0.75`; then write 1 on channels with
`similarity_threshold[0] > xcor_hf`; then write 2 on channels with
`psd_hf > psd_hf_threshold` or `xcor_hf > similarity_threshold[1]`.
Each masked write overwrites the previous ones, mirroring the sequential
numpy assignments. -/
def make_recommendation (nc : ℕ) (xcor_hf xcor_lf psd_hf : Fin nc → ℚ)
    (similarity_threshold : ℚ × ℚ) (psd_hf_threshold : ℚ) : Fin nc → ℕ :=
  let ioutside : List ℕ :=
    ((List.finRange nc).filter (fun c => decide (xcor_lf c < -0.75))).map Fin.val
  let iout := extract_outside ioutside nc
  fun c =>
    let l0 : ℕ := 0
    let l1 := if c.val ∈ iout then 3 else l0
    let l2 := if similarity_threshold.1 > xcor_hf c then 1 else l1
    if psd_hf c > psd_hf_threshold ∨ xcor_hf c > similarity_threshold.2 then 2 else l2

/-- Median of a list as computed by `np.median`: sort, then take the middle
element (odd length) or the average of the two middle elements (even
length). -/
def npMedian {α : Type} [LinearOrder α] [Field α] (l : List α) : α :=
  let s := l.insertionSort (· ≤ ·)
  if l.length % 2 = 1 then s.getD (l.length / 2) 0
  else (s.getD (l.length / 2 - 1) 0 + s.getD (l.length / 2) 0) / 2

/-- One output sample of `scipy.signal.medfilt(xs, w)`: the median of the
window of width `w` centred at `i` (`w` odd, radius `(w-1)/2`), reading 0
outside the bounds of `xs` (scipy zero-pads the boundary). -/
def medfiltAt (xs : List ℚ) (w i : ℕ) : ℚ :=
  npMedian ((List.range w).map (fun j =>
    if (w - 1) / 2 ≤ i + j ∧ i + j - (w - 1) / 2 < xs.length
    then xs.getD (i + j - (w - 1) / 2) 0 else 0))

/-- Model of `scipy.signal.medfilt(xs, w)` for odd kernel size `w`:
same-length output of windowed medians with zero-padded boundary. -/
def medfilt (xs : List ℚ) (w : ℕ) : List ℚ :=
  (List.range xs.length).map (medfiltAt xs w)

/-- Source `detrend`, lines 261-273: pad both ends with `ceil(nmed/2)`
copies of the first and last value, median-filter the padded vector, trim
the taper back off, and subtract the result from the input.  `x[0]` on an
empty vector raises `IndexError` in Python, hence the `Option`. -/
def detrend (x : List ℚ) (nmed : ℕ) : Option (List ℚ) :=
  match x with
  | [] => none
  | x0 :: rest =>
      let xs := x0 :: rest
      let ntap := (nmed + 1) / 2
      let xf := List.replicate ntap x0 ++ xs ++
        List.replicate ntap (xs.getLast (by simp))
      let trimmed := ((medfilt xf nmed).drop ntap).take xs.length
      some (List.zipWith (fun a b => a - b) xs trimmed)

/-- The length-`N` discrete-Fourier root of unity `e^(2 pi i / N)`. -/
noncomputable def dftOmega (N : ℕ) : ℂ :=
  Complex.exp (2 * (Real.pi : ℂ) * Complex.I / (N : ℂ))

/-- Discrete Fourier transform with the numpy sign convention,
`X_k = sum_n x_n e^(-2 pi i k n / N)`.  `np.fft.rfft` returns the
nonredundant half of this spectrum; for the real inputs used here the two
carry the same information. -/
noncomputable def dft {N : ℕ} (x : Fin N → ℂ) : Fin N → ℂ :=
  fun k => ∑ n, x n * (starRingEnd ℂ) (dftOmega N) ^ (k.val * n.val)

/-- Inverse discrete Fourier transform,
`x_j = (1/N) sum_k X_k e^(2 pi i k j / N)` (`np.fft.irfft` with `n = N` on
a conjugate-symmetric spectrum computes exactly this). -/
noncomputable def idft {N : ℕ} (y : Fin N → ℂ) : Fin N → ℂ :=
  fun j => (∑ k, y k * dftOmega N ^ (k.val * j.val)) / N

/-- Source `fxcor`, lines 290-292:
`irfft(rfft(x) * conj(rfft(y)), n)`, the FFT-based circular
cross-correlation, per channel. -/
noncomputable def fxcor {N : ℕ} (x y : Fin N → ℂ) : Fin N → ℂ :=
  idft (fun k => dft x k * (starRingEnd ℂ) (dft y k))

/-- Arithmetic mean `np.mean` over one axis. -/
noncomputable def npMean {N : ℕ} (v : Fin N → ℝ) : ℝ :=
  (∑ n, v n) / N

/-- Source `nxcor`, lines 294-299: centre `ref`, take the zero-lag
autocorrelation of the centred reference as `apeak`, centre each column of
`x`, and return the zero-lag FFT cross-correlation of each centred column
with the centred reference, divided by `apeak`.  (Line 298 computes a
value and discards it; it has no effect.)  A chunk is sample-major:
`x n c` is sample `n` of channel `c`. -/
noncomputable def nxcor {ns nc : ℕ} [NeZero ns] (x : Fin ns → Fin nc → ℝ)
    (ref : Fin ns → ℝ) : Fin nc → ℝ :=
  let ref' := fun n => ref n - npMean ref
  let apeak := (fxcor (fun n => (ref' n : ℂ)) (fun n => (ref' n : ℂ)) 0).re
  let x' := fun n c => x n c - npMean (fun m => x m c)
  fun c => (fxcor (fun n => (x' n c : ℂ)) (fun n => (ref' n : ℂ)) 0).re / apeak

/-- The reference signal of `channel_similarity` and
`channel_simiarlity_new`, lines 276 and 283: the per-sample median across
channels, `np.median(raw, axis=1)`. -/
noncomputable def channelRef {ns nc : ℕ} (raw : Fin ns → Fin nc → ℝ) :
    Fin ns → ℝ :=
  fun n => npMedian ((List.finRange nc).map (raw n))

/-- Source `channel_similarity`, lines 281-288: the FFT path.  The returned
value is `nxcor(raw, ref)`; the function also recomputes the direct
formula into `alt_comp` and asserts `allclose(xcor, alt_comp, atol=0.01)`
— the claims compare the two paths, so both are defined and the assert is
settled by the theorems below. -/
noncomputable def channel_similarity {ns nc : ℕ} [NeZero ns]
    (raw : Fin ns → Fin nc → ℝ) : Fin nc → ℝ :=
  nxcor raw (channelRef raw)

/-- Source `channel_simiarlity_new`, lines 275-278 (also the `alt_comp` of
line 285): the direct time-domain formula
`sum(raw * ref) / sum(ref ** 2)` per channel, with no extra centring. -/
noncomputable def channel_simiarlity_new {ns nc : ℕ}
    (raw : Fin ns → Fin nc → ℝ) : Fin nc → ℝ :=
  fun c => (∑ n, raw n c * channelRef raw n) / (∑ n, channelRef raw n ^ 2)

/-- A concrete mean-centred 3-sample, 3-channel chunk (each channel sums
to zero) whose per-sample median reference has nonzero mean; rows are
samples, columns are channels. -/
noncomputable def exChunk : Fin 3 → Fin 3 → ℝ := fun n c =>
  (([[2, 0, 0], [-1, 1, -1], [-1, -1, 1]] : List (List ℝ)).getD n.val []).getD c.val 0

/-- A concrete 2-sample, 3-channel chunk whose per-sample median reference
sums to zero. -/
noncomputable def exChunk2 : Fin 2 → Fin 3 → ℝ := fun n c =>
  (([[1, 2, 3], [-1, -2, -3]] : List (List ℝ)).getD n.val []).getD c.val 0

/-! Helper lemmas about the dictionary model. -/

theorem dget_dpop_self (k : Kwargs) (s : String) : dget (dpop k s) s = none := by
  induction k with
  | nil => rfl
  | cons p rest ih =>
      obtain ⟨a, v⟩ := p
      by_cases h : a = s
      · simpa [dpop, h] using ih
      · simp [dpop, h, dget, ih]

theorem dcontains_cons (a : String) (v : PyVal) (u : Kwargs) (s : String) :
    dcontains ((a, v) :: u) s = (decide (a = s) || dcontains u s) := by
  by_cases h : a = s <;> simp [dcontains, dget, h]

theorem dcontains_dset (d : Kwargs) (a s : String) (v : PyVal) :
    dcontains (dset d a v) s = (dcontains d s || decide (a = s)) := by
  induction d with
  | nil => by_cases h : a = s <;> simp [dset, dcontains, dget, h]
  | cons p rest ih =>
      obtain ⟨b, w⟩ := p
      simp only [dset]
      by_cases hb : b = a
      · subst hb
        rw [if_pos rfl, dcontains_cons, dcontains_cons]
        cases hbs : decide (b = s) <;> simp [hbs]
      · rw [if_neg hb, dcontains_cons, dcontains_cons, ih, Bool.or_assoc]

theorem dupdate_cons (d : Kwargs) (a : String) (v : PyVal) (u : Kwargs) :
    dupdate d ((a, v) :: u) = dupdate (dset d a v) u := rfl

theorem dcontains_dupdate (d u : Kwargs) (s : String) :
    dcontains (dupdate d u) s = (dcontains d s || dcontains u s) := by
  induction u generalizing d with
  | nil => simp [dupdate, dcontains, dget]
  | cons p u' ih =>
      obtain ⟨a, v⟩ := p
      rw [dupdate_cons, ih, dcontains_dset, dcontains_cons]
      cases dcontains d s <;> cases dcontains u' s <;> simp

/-! Claim theorems for the configuration-handling components. -/

/-- C2: `detect_bad_channels` with `psd_hf_threshold` omitted is claimed to
use the default `1.4 if fs < 5000 else 0.02`; in the source the name `fs`
is unbound at that point, so the call raises `NameError` and in particular
never produces the documented default for any sampling rate.  (Code bug:
the spec and the surrounding docstring describe the intended switch.) -/
theorem c2_psd_default_name_error :
    psd_hf_threshold_resolve none = Except.error PyError.nameError ∧
    ∀ fs : ℚ, psd_hf_threshold_resolve none ≠ Except.ok (spec_psd_hf_default fs) := by
  exact ⟨rfl, fun fs h => by simp [psd_hf_threshold_resolve] at h⟩

/-- C9: with `random_chunk_kwargs` omitted (`None`), the claimed default
policy is recorded in `default_random_chunk_kwargs` exactly as stated
(chunk size `int(0.3 * fs)`, 10 chunks per segment, seed 0, scaled return,
no concatenation), but the `None` value reaches
`"concatenated" in user_random_chunk_kwargs` on line 162 and Python raises
`TypeError` before the defaults are ever built.  (Code bug: line 173 shows
`None` was meant to be supported.) -/
theorem c9_default_kwargs_type_error :
    (∀ fs : ℚ, handle_random_chunk_kwargs fs none = Except.error PyError.typeError) ∧
    (∀ fs : ℚ,
      dget (default_random_chunk_kwargs fs) "chunk_size" = some (PyVal.pyint ⌊0.3 * fs⌋) ∧
      dget (default_random_chunk_kwargs fs) "num_chunks_per_segment" = some (PyVal.pyint 10) ∧
      dget (default_random_chunk_kwargs fs) "seed" = some (PyVal.pyint 0) ∧
      dget (default_random_chunk_kwargs fs) "return_scaled" = some (PyVal.pybool true) ∧
      dget (default_random_chunk_kwargs fs) "concatenated" = some (PyVal.pybool false)) :=
  ⟨fun _ => rfl, fun _ => ⟨rfl, rfl, rfl, rfl, rfl⟩⟩

/-- C8 counterexample: for the kwargs dictionary with a truthy
`"concatenated"` key and `psd_hf_threshold` omitted, `detect_bad_channels`
fails with `NameError` (the unbound `fs` of line 114), not with the
claimed configuration error, because the threshold default is evaluated
before `handle_random_chunk_kwargs` runs. -/
theorem c8_name_error_preempts_config_error :
    detect_bad_channels_run (fun k => k) (fun _ _ _ => (0 : ℕ)) none 30000
      (some [("concatenated", PyVal.pybool true)]) =
      Except.error PyError.nameError ∧
    PyError.nameError ≠ PyError.attributeError :=
  ⟨rfl, by decide⟩

/-- C8 (amended): whenever `psd_hf_threshold` is supplied, a kwargs
dictionary whose `"concatenated"` key is present and truthy makes
`detect_bad_channels` fail fast with the configuration error
(`AttributeError`) for every sampler and classifier — i.e. before any
chunk is sampled or any classification computed. -/
theorem c8_config_error_before_sampling :
    ∀ {α β : Type} (sampler : Kwargs → α) (classify : ℚ → Bool → α → β)
      (psd fs : ℚ) (u : Kwargs), concat_requested u = true →
      detect_bad_channels_run sampler classify (some psd) fs (some u) =
        Except.error PyError.attributeError := by
  intro α β sampler classify psd fs u h
  simp [detect_bad_channels_run, psd_hf_threshold_resolve,
    handle_random_chunk_kwargs, h]

/-- C8 witness: the amended theorem applied at a concrete configuration. -/
theorem c8_config_error_witness :
    concat_requested [("concatenated", PyVal.pybool true)] = true ∧
    detect_bad_channels_run (fun k => k) (fun _ _ _ => (0 : ℕ)) (some 0.02) 30000
      (some [("concatenated", PyVal.pybool true)]) =
      Except.error PyError.attributeError :=
  ⟨by decide, c8_config_error_before_sampling _ _ 0.02 30000 _ (by decide)⟩

/-- C10: the test-only PSD scaling is enabled exactly when the key
`"scale_for_testing"` is present in the merged kwargs (the stored value is
irrelevant; the flag equals key membership in the user dictionary, since
the defaults never contain the key), the key is removed from the mapping
handed onward to the chunk sampler, and the enabled flag selects the 1e6
factor of line 217. -/
theorem c10_scale_flag_by_key_presence :
    ∀ (fs : ℚ) (u k' : Kwargs) (s : Bool),
      handle_random_chunk_kwargs fs (some u) = Except.ok (k', s) →
      s = dcontains u "scale_for_testing" ∧
      dget k' "scale_for_testing" = none ∧
      welch_scale s = if s then 1000000 else 1 := by
  intro fs u k' s h
  simp only [handle_random_chunk_kwargs] at h
  by_cases hc : concat_requested u
  · rw [if_pos hc] at h; exact absurd h (by simp)
  · rw [if_neg hc] at h
    have hmerged : dcontains (dupdate (default_random_chunk_kwargs fs) u)
        "scale_for_testing" = dcontains u "scale_for_testing" := by
      rw [dcontains_dupdate]
      have : dcontains (default_random_chunk_kwargs fs) "scale_for_testing" = false := rfl
      rw [this, Bool.false_or]
    by_cases hkey : dcontains (dupdate (default_random_chunk_kwargs fs) u)
        "scale_for_testing"
    · rw [handle_test_case, if_pos hkey, Except.ok.injEq, Prod.mk.injEq] at h
      obtain ⟨hk, hs⟩ := h
      refine ⟨?_, ?_, rfl⟩
      · rw [← hs, ← hmerged, hkey]
      · rw [← hk]; exact dget_dpop_self _ _
    · rw [handle_test_case, if_neg hkey, Except.ok.injEq, Prod.mk.injEq] at h
      obtain ⟨hk, hs⟩ := h
      simp only [Bool.not_eq_true] at hkey
      refine ⟨?_, ?_, rfl⟩
      · rw [← hs, ← hmerged, hkey]
      · rw [← hk]
        cases hval : dget (dupdate (default_random_chunk_kwargs fs) u)
            "scale_for_testing" with
        | none => rfl
        | some v => rw [dcontains, hval] at hkey; exact absurd hkey (by simp)

/-- C10 witness: the theorem applied at a concrete call whose stored value
under `"scale_for_testing"` is `False` — scaling is enabled anyway. -/
theorem c10_scale_flag_witness :
    true = dcontains [("scale_for_testing", PyVal.pybool false)] "scale_for_testing" ∧
    dget (default_random_chunk_kwargs 30000) "scale_for_testing" = none ∧
    welch_scale true = if true then 1000000 else 1 :=
  c10_scale_flag_by_key_presence 30000 [("scale_for_testing", PyVal.pybool false)]
    (default_random_chunk_kwargs 30000) true (by rfl)

/-- C5 counterexample: for 3000 channels and 1000 bad channels — exactly
one third, where the claim says no warning — the source condition
`1000 > 3000 * 0.333` is true and the warning is emitted. -/
theorem c5_warning_at_exactly_one_third :
    bad_channel_warning 3000 1000 = true ∧ ¬((3000 : ℚ) / 3 < 1000) := by
  constructor
  · simp only [bad_channel_warning, decide_eq_true_eq]
    norm_num
  · norm_num

/-- C5 (amended): the warning fires exactly when the bad-channel count
exceeds `0.333` times the channel count (the literal constant of line
141).  Every count strictly above one third triggers it, but so do some
counts at or below exactly one third — whenever an integer lies in the
interval from `0.333 * n` (exclusive) to `n / 3` (inclusive), e.g. 1 bad
of 3 channels or 1000 bad of 3000 channels, both exactly one third.  The
warning is purely advisory: the bad indices and the flag vector are
returned unchanged in every case, with no error path. -/
theorem c5_warning_characterisation :
    ∀ flags : List ℕ,
      (detect_bad_channels_result flags).1 = bad_inds flags ∧
      (detect_bad_channels_result flags).2.2 = flags ∧
      ((detect_bad_channels_result flags).2.1 = true ↔
        (flags.length : ℚ) * 0.333 < ((bad_inds flags).length : ℚ)) ∧
      ∀ nc nbad : ℕ, nc < 3 * nbad → bad_channel_warning nc nbad = true := by
  intro flags
  refine ⟨rfl, rfl, ?_, ?_⟩
  · simp [detect_bad_channels_result, bad_channel_warning]
  · intro nc nbad h
    simp only [bad_channel_warning, decide_eq_true_eq]
    have hq : (nc : ℚ) < 3 * (nbad : ℚ) := by exact_mod_cast h
    have h0 : (0 : ℚ) ≤ (nbad : ℚ) := by positivity
    nlinarith

/-- C5 witness: the spec-implies-warning part of the amended theorem
applied at 2 channels with 1 bad channel. -/
theorem c5_warning_witness :
    2 < 3 * 1 ∧ bad_channel_warning 2 1 = true :=
  ⟨by norm_num, (c5_warning_characterisation []).2.2.2 2 1 (by norm_num)⟩

/-- C4: a channel satisfying both the dead condition (`xcor_hf` below the
low similarity threshold) and the noisy condition (`psd_hf` above the
threshold or `xcor_hf` above the high similarity threshold) is labelled 2,
never 1: the noisy write comes after the dead write. -/
theorem c4_noisy_overrides_dead :
    ∀ (nc : ℕ) (xcor_hf xcor_lf psd_hf : Fin nc → ℚ) (thr : ℚ × ℚ) (p : ℚ)
      (c : Fin nc),
      thr.1 > xcor_hf c → (psd_hf c > p ∨ xcor_hf c > thr.2) →
      make_recommendation nc xcor_hf xcor_lf psd_hf thr p c = 2 := by
  intro nc xh xl ph thr p c _ hnoisy
  simp only [make_recommendation]
  rw [if_pos hnoisy]

/-- C4 witness: a synthetic channel that is simultaneously dead
(`xcor_hf = -1 < -1/2`) and noisy (`psd_hf = 1 > 0`) is labelled 2. -/
theorem c4_noisy_overrides_dead_witness :
    (((-1 : ℚ)/2, (1 : ℚ)).1 > -1 ∧ ((1 : ℚ) > 0 ∨ (-1 : ℚ) > 1)) ∧
    make_recommendation 1 (fun _ => (-1 : ℚ)) (fun _ => 0) (fun _ => 1)
      (-1/2, 1) 0 0 = 2 :=
  ⟨⟨by norm_num, Or.inl (by norm_num)⟩,
    c4_noisy_overrides_dead 1 _ _ _ _ _ 0 (by norm_num) (Or.inl (by norm_num))⟩

/-! Helper lemmas about list maxima, minima and the mode. -/

theorem le_foldl_max (xs : List ℕ) : ∀ (x v : ℕ), v = x ∨ v ∈ xs → v ≤ xs.foldl Nat.max x := by
  induction xs with
  | nil => rintro x v (rfl | h)
           · exact le_refl _
           · cases h
  | cons y ys ih =>
      rintro x v (rfl | h)
      · exact le_trans (Nat.le_max_left _ y) (ih _ _ (Or.inl rfl))
      · rcases List.mem_cons.mp h with rfl | hmem
        · exact le_trans (Nat.le_max_right x _) (ih _ _ (Or.inl rfl))
        · exact ih _ _ (Or.inr hmem)

theorem foldl_max_mem (xs : List ℕ) : ∀ x : ℕ, xs.foldl Nat.max x = x ∨ xs.foldl Nat.max x ∈ xs := by
  induction xs with
  | nil => exact fun x => Or.inl rfl
  | cons y ys ih =>
      intro x
      rcases ih (Nat.max x y) with h | h
      · rcases Nat.le_total x y with hxy | hxy
        · exact Or.inr (by
            rw [List.foldl_cons, h, show x.max y = y by simp [Nat.max_def]; omega]
            exact List.mem_cons_self _ _)
        · exact Or.inl (by rw [List.foldl_cons, h, show x.max y = x by simp [Nat.max_def]; omega])
      · exact Or.inr (List.mem_cons_of_mem _ h)

theorem foldl_min_le (xs : List ℕ) : ∀ (x v : ℕ), v = x ∨ v ∈ xs → xs.foldl Nat.min x ≤ v := by
  induction xs with
  | nil => rintro x v (rfl | h)
           · exact le_refl _
           · cases h
  | cons y ys ih =>
      rintro x v (rfl | h)
      · exact le_trans (ih _ _ (Or.inl rfl)) (Nat.min_le_left _ y)
      · rcases List.mem_cons.mp h with rfl | hmem
        · exact le_trans (ih _ _ (Or.inl rfl)) (Nat.min_le_right x _)
        · exact ih _ _ (Or.inr hmem)

theorem foldl_min_mem (xs : List ℕ) : ∀ x : ℕ, xs.foldl Nat.min x = x ∨ xs.foldl Nat.min x ∈ xs := by
  induction xs with
  | nil => exact fun x => Or.inl rfl
  | cons y ys ih =>
      intro x
      rcases ih (Nat.min x y) with h | h
      · rcases Nat.le_total x y with hxy | hxy
        · exact Or.inl (by rw [List.foldl_cons, h, show x.min y = x by simp [Nat.min_def]; omega])
        · exact Or.inr (by
            rw [List.foldl_cons, h, show x.min y = y by simp [Nat.min_def]; omega]
            exact List.mem_cons_self _ _)
      · exact Or.inr (List.mem_cons_of_mem _ h)

theorem le_listMax (l : List ℕ) : ∀ v ∈ l, v ≤ listMax l := by
  intro v hv
  cases l with
  | nil => cases hv
  | cons x xs =>
      rcases List.mem_cons.mp hv with rfl | hmem
      · exact le_foldl_max xs v v (Or.inl rfl)
      · exact le_foldl_max xs x v (Or.inr hmem)

theorem listMax_mem (l : List ℕ) (h : l ≠ []) : listMax l ∈ l := by
  cases l with
  | nil => exact absurd rfl h
  | cons x xs =>
      show xs.foldl Nat.max x ∈ x :: xs
      rcases foldl_max_mem xs x with hm | hm
      · rw [hm]; exact List.mem_cons_self _ _
      · exact List.mem_cons_of_mem _ hm

theorem listMin_le (l : List ℕ) : ∀ v ∈ l, listMin l ≤ v := by
  intro v hv
  cases l with
  | nil => cases hv
  | cons x xs =>
      rcases List.mem_cons.mp hv with rfl | hmem
      · exact foldl_min_le xs v v (Or.inl rfl)
      · exact foldl_min_le xs x v (Or.inr hmem)

theorem listMin_mem (l : List ℕ) (h : l ≠ []) : listMin l ∈ l := by
  cases l with
  | nil => exact absurd rfl h
  | cons x xs =>
      show xs.foldl Nat.min x ∈ x :: xs
      rcases foldl_min_mem xs x with hm | hm
      · rw [hm]; exact List.mem_cons_self _ _
      · exact List.mem_cons_of_mem _ hm

theorem listMode_spec (row : List ℕ) (h : row ≠ []) :
    listMode row ∈ row ∧
    (∀ v ∈ row, row.count v ≤ row.count (listMode row)) ∧
    (∀ v ∈ row, row.count v = row.count (listMode row) → listMode row ≤ v) := by
  have hmaxmem : listMax (row.map row.count) ∈ row.map row.count :=
    listMax_mem _ (by simpa using h)
  obtain ⟨w, hw, hwc⟩ := List.mem_map.mp hmaxmem
  have hMne : row.filter (fun v => row.count v == listMax (row.map row.count)) ≠ [] := by
    refine List.ne_nil_of_mem (a := w) (List.mem_filter.mpr ⟨hw, ?_⟩)
    simpa using hwc
  have hmodeM : listMode row ∈
      row.filter (fun v => row.count v == listMax (row.map row.count)) :=
    listMin_mem _ hMne
  obtain ⟨hmem, hcnt⟩ := List.mem_filter.mp hmodeM
  have hcnt' : row.count (listMode row) = listMax (row.map row.count) := by
    simpa using hcnt
  refine ⟨hmem, ?_, ?_⟩
  · intro v hv
    rw [hcnt']
    exact le_listMax _ _ (List.mem_map.mpr ⟨v, hv, rfl⟩)
  · intro v hv hvc
    refine listMin_le _ v (List.mem_filter.mpr ⟨hv, ?_⟩)
    simp [hvc, hcnt']

/-- C6: the multi-chunk aggregation takes, per channel, the statistical
mode of that channel's labels across chunks (most frequent label; among
equally frequent labels the smallest, per the scipy.stats.mode contract
the source calls on line 136), and a channel with labels `[0,0,1]` across
3 chunks gets final flag 0. -/
theorem c6_mode_aggregation :
    (∀ row : List ℕ, row ≠ [] →
      listMode row ∈ row ∧
      (∀ v ∈ row, row.count v ≤ row.count (listMode row)) ∧
      (∀ v ∈ row, row.count v = row.count (listMode row) → listMode row ≤ v)) ∧
    channel_flags_of [[0, 0, 1]] = [0] := by
  refine ⟨fun row h => listMode_spec row h, ?_⟩
  decide

/-- C6 witness: the mode characterisation applied to the concrete label
row `[0,0,1]`. -/
theorem c6_mode_witness :
    (([0, 0, 1] : List ℕ) ≠ []) ∧
    (listMode [0, 0, 1] ∈ [0, 0, 1] ∧
      (∀ v ∈ [0, 0, 1], List.count v [0, 0, 1] ≤ List.count (listMode [0, 0, 1]) [0, 0, 1]) ∧
      (∀ v ∈ [0, 0, 1], List.count v [0, 0, 1] = List.count (listMode [0, 0, 1]) [0, 0, 1] →
        listMode [0, 0, 1] ≤ v)) :=
  ⟨by decide, c6_mode_aggregation.1 [0, 0, 1] (by decide)⟩

/-! Helper lemmas for the contiguous-region extraction. -/

theorem scanl_add_shift (es : List ℕ) : ∀ c b : ℕ,
    List.scanl (· + ·) (c + b) es = (List.scanl (· + ·) b es).map (c + ·) := by
  induction es with
  | nil => intro c b; rfl
  | cons e es' ih =>
      intro c b
      rw [List.scanl_cons, List.scanl_cons]
      have : c + b + e = c + (b + e) := by omega
      rw [this, ih c (b + e)]
      rfl

theorem npdiff_cons_cons (x y : ℕ) (rest : List ℕ) :
    npdiff (x :: y :: rest) = (y - x) :: npdiff (y :: rest) := rfl

theorem gaps_cons_cons (x y : ℕ) (rest : List ℕ) :
    gaps (x :: y :: rest) = 0 :: (gaps (y :: rest)).map ((y - x - 1) + ·) := by
  rw [gaps, npdiff_cons_cons, List.map_cons, List.scanl_cons]
  have h1 : (0 : ℕ) + (y - x - 1) = (y - x - 1) + 0 := by omega
  rw [h1, scanl_add_shift]
  rfl

theorem gaps_ne_nil (l : List ℕ) : gaps l ≠ [] := by
  cases l with
  | nil => simp [gaps, npdiff]
  | cons x xs => cases xs <;> simp [gaps, npdiff, List.scanl_cons]

theorem listMax_cons_zero (as : List ℕ) (h : as ≠ []) :
    listMax (0 :: as) = listMax as := by
  cases as with
  | nil => exact absurd rfl h
  | cons b bs =>
      show (b :: bs).foldl Nat.max 0 = bs.foldl Nat.max b
      rw [List.foldl_cons, show Nat.max 0 b = b by simp [Nat.max_def]]

theorem foldl_max_map_add (c : ℕ) (xs : List ℕ) : ∀ x : ℕ,
    (xs.map (c + ·)).foldl Nat.max (c + x) = c + xs.foldl Nat.max x := by
  induction xs with
  | nil => intro x; rfl
  | cons y ys ih =>
      intro x
      rw [List.map_cons, List.foldl_cons, List.foldl_cons,
        show Nat.max (c + x) (c + y) = c + Nat.max x y by
          simp only [Nat.max_def]; split_ifs <;> omega]
      exact ih (Nat.max x y)

theorem listMax_map_add (c : ℕ) (as : List ℕ) (h : as ≠ []) :
    listMax (as.map (c + ·)) = c + listMax as := by
  cases as with
  | nil => exact absurd rfl h
  | cons x xs =>
      show (xs.map (c + ·)).foldl Nat.max (c + x) = c + xs.foldl Nat.max x
      exact foldl_max_map_add c xs x

theorem zip_filter_shift (c m : ℕ) : ∀ (t g : List ℕ),
    ((t.zip (g.map (c + ·))).filter (fun p => p.2 == c + m)).map Prod.fst =
      ((t.zip g).filter (fun p => p.2 == m)).map Prod.fst := by
  intro t
  induction t with
  | nil => intro g; rfl
  | cons a t' ih =>
      intro g
      cases g with
      | nil => rfl
      | cons b g' =>
          rw [List.map_cons, List.zip_cons_cons, List.zip_cons_cons,
            List.filter_cons, List.filter_cons]
          have hpred : ((a, c + b).2 == c + m) = ((a, b).2 == m) := by
            by_cases hbm : b = m
            · simp [hbm]
            · have hne : c + b ≠ c + m := by omega
              simp [hbm, hne]
          rw [hpred]
          by_cases hbm : ((a, b).2 == m) = true
          · rw [hbm, if_pos rfl, if_pos rfl, List.map_cons, List.map_cons, ih g']
          · rw [Bool.not_eq_true] at hbm
            rw [hbm, if_neg (by simp), if_neg (by simp), ih g']

theorem trailingRun_cons_cons (x y : ℕ) (rest : List ℕ) :
    trailingRun (x :: y :: rest) =
      if y = x + 1 ∧ trailingRun (y :: rest) = y :: rest
      then x :: trailingRun (y :: rest) else trailingRun (y :: rest) := rfl

theorem trailingRun_length_le : ∀ l : List ℕ, (trailingRun l).length ≤ l.length
  | [] => le_refl _
  | [_] => le_refl _
  | x :: y :: rest => by
      rw [trailingRun_cons_cons]
      by_cases hc : y = x + 1 ∧ trailingRun (y :: rest) = y :: rest
      · rw [if_pos hc, hc.2]
      · rw [if_neg hc]
        exact le_trans (trailingRun_length_le (y :: rest)) (by simp)

theorem maxgaps_zero_iff : ∀ l : List ℕ, List.Chain' (· < ·) l →
    (listMax (gaps l) = 0 ↔ trailingRun l = l)
  | [], _ => by constructor <;> intro <;> rfl
  | [x], _ => by constructor <;> intro <;> rfl
  | x :: y :: rest, h => by
      obtain ⟨hxy, htail⟩ := List.chain'_cons.mp h
      rw [gaps_cons_cons,
        listMax_cons_zero _ (by simp [gaps_ne_nil]),
        listMax_map_add _ _ (gaps_ne_nil _)]
      have ih := maxgaps_zero_iff (y :: rest) htail
      constructor
      · intro hz
        have hc1 : y - x - 1 = 0 := by omega
        have hc2 : listMax (gaps (y :: rest)) = 0 := by omega
        have hcond : y = x + 1 ∧ trailingRun (y :: rest) = y :: rest :=
          ⟨by omega, ih.mp hc2⟩
        rw [trailingRun_cons_cons, if_pos hcond, hcond.2]
      · intro he
        rw [trailingRun_cons_cons] at he
        by_cases hc : y = x + 1 ∧ trailingRun (y :: rest) = y :: rest
        · have h1 : y - x - 1 = 0 := by omega
          have h2 : listMax (gaps (y :: rest)) = 0 := ih.mpr hc.2
          omega
        · rw [if_neg hc] at he
          have hlen := trailingRun_length_le (y :: rest)
          rw [he] at hlen
          simp at hlen

theorem keep_eq_trailingRun : ∀ l : List ℕ, List.Chain' (· < ·) l →
    ((l.zip (gaps l)).filter (fun p => p.2 == listMax (gaps l))).map Prod.fst =
      trailingRun l
  | [], _ => rfl
  | [x], _ => rfl
  | x :: y :: rest, h => by
      obtain ⟨hxy, htail⟩ := List.chain'_cons.mp h
      have ih := keep_eq_trailingRun (y :: rest) htail
      rw [gaps_cons_cons,
        listMax_cons_zero _ (by simp [gaps_ne_nil]),
        listMax_map_add _ _ (gaps_ne_nil _),
        List.zip_cons_cons, List.filter_cons]
      by_cases hz : y - x - 1 + listMax (gaps (y :: rest)) = 0
      · have hcond : y = x + 1 ∧ trailingRun (y :: rest) = y :: rest :=
          ⟨by omega, (maxgaps_zero_iff (y :: rest) htail).mp (by omega)⟩
        rw [if_pos (by simp [hz]), List.map_cons, zip_filter_shift, ih,
          trailingRun_cons_cons, if_pos hcond]
      · rw [if_neg (by simp; omega), zip_filter_shift, ih,
          trailingRun_cons_cons,
          if_neg (fun hc => hz (by
            have h2 : listMax (gaps (y :: rest)) = 0 :=
              (maxgaps_zero_iff (y :: rest) htail).mpr hc.2
            omega))]

/-- C3: the single-chunk classifier marks as outside-brain exactly the
maximal contiguous run of low-frequency-flagged channel indices ending at
the last channel index: flagged `[6,7,9]` of 10 channels keeps only `[9]`,
flagged `[7,8,9]` keeps `[7,8,9]`; an empty flagged set, or one whose
highest index is not the last channel, marks nothing; and in general on a
strictly increasing flagged list ending at the last channel the
cumulative-gap selection equals the maximal trailing contiguous run. -/
theorem c3_contiguous_extraction :
    extract_outside [6, 7, 9] 10 = [9] ∧
    extract_outside [7, 8, 9] 10 = [7, 8, 9] ∧
    (∀ nc : ℕ, extract_outside [] nc = []) ∧
    (∀ (l : List ℕ) (nc : ℕ), l.getLast? ≠ some (nc - 1) →
      extract_outside l nc = []) ∧
    (∀ (l : List ℕ) (nc : ℕ), List.Chain' (· < ·) l →
      l.getLast? = some (nc - 1) → extract_outside l nc = trailingRun l) := by
  refine ⟨by decide, by decide, ?_, ?_, ?_⟩
  · intro nc; simp [extract_outside]
  · intro l nc hlast
    rw [extract_outside, if_neg (fun hcond => hlast hcond.2)]
  · intro l nc hchain hlast
    cases l with
    | nil => simp at hlast
    | cons a as =>
        rw [extract_outside, if_pos ⟨by simp, hlast⟩]
        exact keep_eq_trailingRun (a :: as) hchain

/-- C3 witness: the general cumulative-gap characterisation and the
not-ending-at-the-last-channel branch applied at concrete inputs. -/
theorem c3_contiguous_extraction_witness :
    (List.Chain' (· < ·) [6, 7, 9] ∧ ([6, 7, 9] : List ℕ).getLast? = some (10 - 1) ∧
      extract_outside [6, 7, 9] 10 = trailingRun [6, 7, 9]) ∧
    (([5] : List ℕ).getLast? ≠ some (10 - 1) ∧ extract_outside [5] 10 = []) :=
  ⟨⟨by norm_num [List.chain'_cons], by decide,
      c3_contiguous_extraction.2.2.2.2 [6, 7, 9] 10
        (by norm_num [List.chain'_cons]) (by decide)⟩,
    ⟨by decide, c3_contiguous_extraction.2.2.2.1 [5] 10 (by decide)⟩⟩

/-! Helper lemmas for the detrend utility. -/

theorem getD_replicate_of_lt (M idx : ℕ) (c d : ℚ) (h : idx < M) :
    (List.replicate M c).getD idx d = c := by
  rw [List.getD_eq_getElem _ d (by simpa using h), List.getElem_replicate]

theorem insertionSort_replicate (k : ℕ) (c : ℚ) :
    (List.replicate k c).insertionSort (· ≤ ·) = List.replicate k c := by
  induction k with
  | zero => rfl
  | succ m ih =>
      rw [List.replicate_succ, List.insertionSort, ih]
      cases m with
      | zero => rfl
      | succ j => simp [List.replicate_succ, List.orderedInsert]

theorem npMedian_replicate (k : ℕ) (hk : k % 2 = 1) (c : ℚ) :
    npMedian (List.replicate k c) = c := by
  unfold npMedian
  rw [insertionSort_replicate]
  simp only [List.length_replicate, hk, if_pos rfl]
  exact getD_replicate_of_lt k (k / 2) c 0 (by omega)

theorem medfiltAt_const (n ntap : ℕ) (c : ℚ) (w : ℕ) (hw : w % 2 = 1)
    (hnt : ntap = (w + 1) / 2) (i : ℕ) (hi1 : ntap ≤ i) (hi2 : i < ntap + n) :
    medfiltAt (List.replicate (n + 2 * ntap) c) w i = c := by
  unfold medfiltAt
  have hmap : (List.range w).map (fun j =>
      if (w - 1) / 2 ≤ i + j ∧ i + j - (w - 1) / 2 <
          (List.replicate (n + 2 * ntap) c).length
      then (List.replicate (n + 2 * ntap) c).getD (i + j - (w - 1) / 2) 0
      else 0) = (List.range w).map (fun _ => c) := by
    apply List.map_congr_left
    intro j hj
    have hjw : j < w := List.mem_range.mp hj
    have hcond : (w - 1) / 2 ≤ i + j ∧ i + j - (w - 1) / 2 <
        (List.replicate (n + 2 * ntap) c).length := by
      rw [List.length_replicate]
      omega
    rw [if_pos hcond]
    exact getD_replicate_of_lt _ _ c 0 (by rw [List.length_replicate] at hcond; omega)
  rw [hmap, List.map_const', List.length_range]
  exact npMedian_replicate w hw c

theorem medfilt_const_trimmed (n ntap w : ℕ) (c : ℚ) (hw : w % 2 = 1)
    (hnt : ntap = (w + 1) / 2) :
    ((medfilt (List.replicate (n + 2 * ntap) c) w).drop ntap).take n =
      List.replicate n c := by
  apply List.ext_getElem
  · simp [medfilt]
    omega
  · intro t h1 h2
    simp only [List.getElem_take, List.getElem_drop, medfilt, List.getElem_map,
      List.getElem_range, List.getElem_replicate]
    have ht : t < n := by
      simp only [List.length_take, List.length_drop, List.length_map,
        List.length_range, medfilt] at h1
      omega
    exact medfiltAt_const n ntap c w hw hnt (ntap + t) (by omega) (by omega)

theorem getLast_cons_replicate (m : ℕ) (c : ℚ) :
    ∀ h, (c :: List.replicate m c).getLast h = c := by
  induction m with
  | zero => intro h; rfl
  | succ k ih =>
      intro h
      show (c :: c :: List.replicate k c).getLast (by simp) = c
      rw [List.getLast_cons (by simp)]
      exact ih _

/-- C7: `detrend` pads both ends with `ceil(w/2)` copies of the first and
last values (constant extrapolation), median-filters with the odd window
`w`, trims back to the original length, and subtracts; consequently every
nonempty constant vector detrends to the all-zero vector of the same
length.  (The padding width `ceil(w/2)` exceeds the filter radius
`(w-1)/2`, so scipy's own zero-padding of `medfilt` never reaches the
retained samples.) -/
theorem c7_detrend_constant_zero :
    ∀ (n : ℕ) (c : ℚ) (w : ℕ), 0 < n → w % 2 = 1 →
      detrend (List.replicate n c) w = some (List.replicate n 0) := by
  intro n c w hn hw
  obtain ⟨m, rfl⟩ : ∃ m, n = m + 1 := ⟨n - 1, by omega⟩
  rw [List.replicate_succ]
  simp only [detrend]
  rw [getLast_cons_replicate]
  have hpad : List.replicate ((w + 1) / 2) c ++ (c :: List.replicate m c) ++
      List.replicate ((w + 1) / 2) c =
      List.replicate ((m + 1) + 2 * ((w + 1) / 2)) c := by
    rw [← List.replicate_succ, ← List.replicate_add, ← List.replicate_add,
      show (w + 1) / 2 + (m + 1) + (w + 1) / 2 = (m + 1) + 2 * ((w + 1) / 2)
        by omega]
  rw [hpad, List.length_cons, List.length_replicate,
    medfilt_const_trimmed (m + 1) ((w + 1) / 2) w c hw rfl,
    ← List.replicate_succ, List.zipWith_replicate]
  simp

/-- C7 witness: the constant vector `[5, 5, 5]` with the window 3 detrends
to `[0, 0, 0]`. -/
theorem c7_detrend_constant_zero_witness :
    ((0 : ℕ) < 3 ∧ 3 % 2 = 1) ∧
    detrend (List.replicate 3 (5 : ℚ)) 3 = some (List.replicate 3 0) :=
  ⟨⟨by decide, by decide⟩, c7_detrend_constant_zero 3 5 3 (by decide) (by decide)⟩

/-! Helper lemmas for the FFT-based similarity path. -/

theorem conj_dftOmega (N : ℕ) :
    (starRingEnd ℂ) (dftOmega N) = (dftOmega N)⁻¹ := by
  unfold dftOmega
  have harg : (starRingEnd ℂ) (2 * (Real.pi : ℂ) * Complex.I / (N : ℂ)) =
      -(2 * (Real.pi : ℂ) * Complex.I / (N : ℂ)) := by
    rw [map_div₀, map_mul, map_mul, Complex.conj_I, Complex.conj_ofReal,
      map_ofNat, map_natCast]
    ring
  rw [← Complex.exp_conj, harg, Complex.exp_neg]

theorem omega_geom_sum (N : ℕ) [NeZero N] (n m : Fin N) :
    ∑ k : Fin N,
      (starRingEnd ℂ) (dftOmega N) ^ (k.val * n.val) *
        dftOmega N ^ (k.val * m.val) =
      if n = m then (N : ℂ) else 0 := by
  have hN : N ≠ 0 := NeZero.ne N
  have hω : dftOmega N ≠ 0 := Complex.exp_ne_zero _
  have hprim : IsPrimitiveRoot (dftOmega N) N := Complex.isPrimitiveRoot_exp N hN
  have hterm : ∀ k : Fin N,
      (starRingEnd ℂ) (dftOmega N) ^ (k.val * n.val) *
        dftOmega N ^ (k.val * m.val) =
      (dftOmega N ^ ((m.val : ℤ) - (n.val : ℤ))) ^ k.val := by
    intro k
    rw [conj_dftOmega, inv_pow,
      ← zpow_natCast (dftOmega N) (k.val * m.val),
      ← zpow_natCast (dftOmega N) (k.val * n.val),
      ← zpow_neg, ← zpow_add₀ hω,
      ← zpow_natCast (dftOmega N ^ ((m.val : ℤ) - (n.val : ℤ))) k.val,
      ← zpow_mul]
    congr 1
    push_cast
    ring
  rw [Finset.sum_congr rfl (fun k _ => hterm k)]
  by_cases hnm : n = m
  · subst hnm
    simp
  · rw [if_neg hnm]
    have hζN : (dftOmega N ^ ((m.val : ℤ) - (n.val : ℤ))) ^ N = 1 := by
      rw [← zpow_natCast (dftOmega N ^ ((m.val : ℤ) - (n.val : ℤ))) N,
        ← zpow_mul, mul_comm, zpow_mul, zpow_natCast, hprim.pow_eq_one, one_zpow]
    have hζ1 : dftOmega N ^ ((m.val : ℤ) - (n.val : ℤ)) ≠ 1 := by
      intro h1
      have hdvd : (N : ℤ) ∣ ((m.val : ℤ) - (n.val : ℤ)) :=
        (hprim.zpow_eq_one_iff_dvd _).mp h1
      have hzero := Int.eq_zero_of_dvd_of_natAbs_lt_natAbs hdvd (by
        have hm := m.isLt
        have hn := n.isLt
        omega)
      exact hnm (Fin.ext (by omega))
    rw [Fin.sum_univ_eq_sum_range
        (fun i => (dftOmega N ^ ((m.val : ℤ) - (n.val : ℤ))) ^ i) N,
      geom_sum_eq hζ1, hζN, sub_self, zero_div]

theorem fxcor_zero_lag (N : ℕ) [NeZero N] (x y : Fin N → ℂ) :
    fxcor x y 0 = ∑ i, x i * (starRingEnd ℂ) (y i) := by
  simp only [fxcor, idft, dft]
  have h0 : ∀ k : Fin N, dftOmega N ^ (k.val * ((0 : Fin N)).val) = 1 := by
    intro k
    rw [Fin.val_zero', Nat.mul_zero, pow_zero]
  have step1 : ∀ k : Fin N,
      (∑ i, x i * (starRingEnd ℂ) (dftOmega N) ^ (k.val * i.val)) *
        (starRingEnd ℂ) (∑ j, y j * (starRingEnd ℂ) (dftOmega N) ^ (k.val * j.val)) *
        dftOmega N ^ (k.val * ((0 : Fin N)).val) =
      ∑ i, ∑ j, x i * (starRingEnd ℂ) (y j) *
        ((starRingEnd ℂ) (dftOmega N) ^ (k.val * i.val) *
          dftOmega N ^ (k.val * j.val)) := by
    intro k
    rw [h0 k, mul_one, map_sum, Finset.sum_mul_sum]
    refine Finset.sum_congr rfl fun i _ => Finset.sum_congr rfl fun j _ => ?_
    rw [map_mul, map_pow, Complex.conj_conj]
    ring
  rw [Finset.sum_congr rfl fun k _ => step1 k, Finset.sum_comm]
  have step2 : ∀ i : Fin N,
      ∑ k : Fin N, ∑ j, x i * (starRingEnd ℂ) (y j) *
        ((starRingEnd ℂ) (dftOmega N) ^ (k.val * i.val) *
          dftOmega N ^ (k.val * j.val)) =
      ∑ j, x i * (starRingEnd ℂ) (y j) *
        ∑ k : Fin N, (starRingEnd ℂ) (dftOmega N) ^ (k.val * i.val) *
          dftOmega N ^ (k.val * j.val) := by
    intro i
    rw [Finset.sum_comm]
    exact Finset.sum_congr rfl fun j _ => (Finset.mul_sum _ _ _).symm
  rw [Finset.sum_congr rfl fun i _ => step2 i]
  have step3 : ∀ i : Fin N,
      ∑ j, x i * (starRingEnd ℂ) (y j) *
        ∑ k : Fin N, (starRingEnd ℂ) (dftOmega N) ^ (k.val * i.val) *
          dftOmega N ^ (k.val * j.val) =
      x i * (starRingEnd ℂ) (y i) * N := by
    intro i
    rw [Finset.sum_congr rfl fun j _ => by rw [omega_geom_sum N i j]]
    simp [mul_ite, Finset.sum_ite_eq]
  rw [Finset.sum_congr rfl fun i _ => step3 i, ← Finset.sum_mul, mul_div_assoc,
    div_self (Nat.cast_ne_zero.mpr (NeZero.ne N)), mul_one]

theorem fxcor_real_zero_lag (N : ℕ) [NeZero N] (a b : Fin N → ℝ) :
    (fxcor (fun i => ((a i : ℝ) : ℂ)) (fun i => ((b i : ℝ) : ℂ)) 0).re =
      ∑ i, a i * b i := by
  rw [fxcor_zero_lag]
  have hterm : ∀ i : Fin N,
      ((a i : ℝ) : ℂ) * (starRingEnd ℂ) ((b i : ℝ) : ℂ) =
        (((a i * b i : ℝ)) : ℂ) := by
    intro i
    rw [Complex.conj_ofReal, ← Complex.ofReal_mul]
  rw [Finset.sum_congr rfl fun i _ => hterm i, ← Complex.ofReal_sum,
    Complex.ofReal_re]

theorem nxcor_eq {ns nc : ℕ} [NeZero ns] (x : Fin ns → Fin nc → ℝ)
    (ref : Fin ns → ℝ) (c : Fin nc) :
    nxcor x ref c =
      (∑ n, (x n c - npMean fun m => x m c) * (ref n - npMean ref)) /
        (∑ n, (ref n - npMean ref) * (ref n - npMean ref)) := by
  simp only [nxcor]
  rw [fxcor_real_zero_lag, fxcor_real_zero_lag]

/-- C1 (amended): the FFT-based path (`nxcor`, normalised by the
reference's zero-lag autocorrelation) and the direct time-domain formula
`sum(raw * ref) / sum(ref ** 2)` agree — in exact arithmetic they are
equal, hence within any tolerance — for every chunk whose per-sample
median reference sums to zero.  (In general `nxcor` re-centres the
reference while the direct formula does not, and the two can differ by
more than 1e-2; see the counterexample.) -/
theorem c1_similarity_paths_agree_zero_mean_ref {ns nc : ℕ} [NeZero ns]
    (raw : Fin ns → Fin nc → ℝ) (href : ∑ n, channelRef raw n = 0) :
    channel_similarity raw = channel_simiarlity_new raw := by
  funext c
  simp only [channel_similarity, channel_simiarlity_new]
  rw [nxcor_eq]
  have hmean : npMean (channelRef raw) = 0 := by
    rw [npMean, href, zero_div]
  simp only [hmean, sub_zero]
  have hnum : ∑ n, (raw n c - npMean fun m => raw m c) * channelRef raw n =
      ∑ n, raw n c * channelRef raw n := by
    have hterm : ∀ n : Fin ns,
        (raw n c - npMean fun m => raw m c) * channelRef raw n =
        raw n c * channelRef raw n -
          (npMean fun m => raw m c) * channelRef raw n := fun n => by ring
    rw [Finset.sum_congr rfl fun n _ => hterm n, Finset.sum_sub_distrib,
      ← Finset.mul_sum, href, mul_zero, sub_zero]
  rw [hnum]
  congr 1
  exact Finset.sum_congr rfl fun n _ => (pow_two _).symm

/-- C1 witness: the amended theorem applied to a concrete chunk whose
median reference `(2, -2)` sums to zero. -/
theorem c1_similarity_paths_witness :
    (∑ n, channelRef exChunk2 n) = 0 ∧
    channel_similarity exChunk2 = channel_simiarlity_new exChunk2 := by
  have hfr : List.finRange 3 = [0, 1, 2] := by decide
  have hva : ((0 : Fin 2)).val = 0 := rfl
  have hvb : ((1 : Fin 2)).val = 1 := rfl
  have hv0 : ((0 : Fin 3)).val = 0 := rfl
  have hv1 : ((1 : Fin 3)).val = 1 := rfl
  have hv2 : ((2 : Fin 3)).val = 2 := rfl
  have h0 : channelRef exChunk2 0 = 2 := by
    simp only [channelRef, hfr, List.map_cons, List.map_nil]
    norm_num [exChunk2, npMedian, List.insertionSort, List.orderedInsert,
      hva, hv0, hv1, hv2, List.getD]
  have h1 : channelRef exChunk2 1 = -2 := by
    simp only [channelRef, hfr, List.map_cons, List.map_nil]
    norm_num [exChunk2, npMedian, List.insertionSort, List.orderedInsert,
      hvb, hv0, hv1, hv2, List.getD]
  have hsum : (∑ n, channelRef exChunk2 n) = 0 := by
    rw [Fin.sum_univ_two, h0, h1]
    norm_num
  exact ⟨hsum, c1_similarity_paths_agree_zero_mean_ref exChunk2 hsum⟩

/-- C1 counterexample: a concrete mean-centred chunk (every channel sums
to zero) on which the FFT path `channel_similarity` and the direct formula
`channel_simiarlity_new` differ by 2 on channel 0 — far beyond the 1e-2
tolerance the claim (and the `assert` on line 286) demand.  The cause: the
chunk's per-sample median reference is `(0, -1, -1)`, whose mean is not
zero, and only the FFT path re-centres it. -/
theorem c1_fft_direct_disagree :
    (∀ c : Fin 3, ∑ n, exChunk n c = 0) ∧
    |channel_similarity exChunk 0 - channel_simiarlity_new exChunk 0| > 1 / 100 := by
  have hfr : List.finRange 3 = [0, 1, 2] := by decide
  have hv0 : ((0 : Fin 3)).val = 0 := rfl
  have hv1 : ((1 : Fin 3)).val = 1 := rfl
  have hv2 : ((2 : Fin 3)).val = 2 := rfl
  have h0 : channelRef exChunk 0 = 0 := by
    simp only [channelRef, hfr, List.map_cons, List.map_nil]
    norm_num [exChunk, npMedian, List.insertionSort, List.orderedInsert,
      hv0, hv1, hv2, List.getD]
  have h1 : channelRef exChunk 1 = -1 := by
    simp only [channelRef, hfr, List.map_cons, List.map_nil]
    norm_num [exChunk, npMedian, List.insertionSort, List.orderedInsert,
      hv0, hv1, hv2, List.getD]
  have h2 : channelRef exChunk 2 = -1 := by
    simp only [channelRef, hfr, List.map_cons, List.map_nil]
    norm_num [exChunk, npMedian, List.insertionSort, List.orderedInsert,
      hv0, hv1, hv2, List.getD]
  constructor
  · intro c
    fin_cases c <;>
      · rw [Fin.sum_univ_three]
        norm_num [exChunk, hv0, hv1, hv2, List.getD]
  · have hs : channel_similarity exChunk 0 = 3 := by
      simp only [channel_similarity]
      rw [nxcor_eq]
      simp only [npMean, Fin.sum_univ_three, h0, h1, h2]
      norm_num [exChunk, hv0, hv1, hv2, List.getD]
    have hd : channel_simiarlity_new exChunk 0 = 1 := by
      simp only [channel_simiarlity_new]
      simp only [Fin.sum_univ_three, h0, h1, h2]
      norm_num [exChunk, hv0, hv1, hv2, List.getD]
    rw [hs, hd, show (3 : ℝ) - 1 = 2 by norm_num, abs_of_pos (by norm_num : (0:ℝ) < 2)]
    norm_num

end RemoveBadChannels
